import Mathlib

/-!
Verification of the knorpelsolve expression/constraint construction core
(`src/mod.ts`).  The TypeScript code is shallowly embedded: JS numbers are
idealised as rationals (`ℚ`); IEEE-754 special values (Infinity, NaN) and
rounding are outside the model.  JS `Map`s (which preserve insertion order)
are embedded as association lists, `Map.set` on a present key updating the
first matching entry in place and otherwise appending at the end, exactly as
insertion-ordered maps behave.
-/

namespace Knorpelsolve

/-- Model of the `Variable` record of `src/mod.ts` (`VariableOptions` merged
in): a name plus optional bounds, integrality flag and initial value.  The
field `integer` is `Option Bool` because the TS field is an optional
boolean. -/
structure Variable where
  name : String
  min : Option ℚ := none
  max : Option ℚ := none
  integer : Option Bool := none
  initial : Option ℚ := none
  deriving DecidableEq, Repr

/-- One value of the `coeff` map of a `LinearExpression`:
`{ factor: number; variable: Variable }`.  The TS field `variable` is a Lean
keyword, so it is called `vr` here. -/
structure Coeff where
  factor : ℚ
  vr : Variable
  deriving DecidableEq, Repr

/-- `LinearExpression` of `src/mod.ts`: the insertion-ordered map
`name -> { factor, variable }`, embedded as an association list. -/
structure LinearExpression where
  coeff : List (String × Coeff)
  deriving DecidableEq, Repr

/-- `Expression` of `src/mod.ts`: a linear part plus a constant offset. -/
structure Expression where
  linear : LinearExpression
  constant : ℚ
  deriving DecidableEq, Repr

/-- The operand union `number | Variable | Expression` accepted by the
algebra combinators. -/
inductive Operand where
  | num (value : ℚ)
  | var (value : Variable)
  | expr (value : Expression)
  deriving DecidableEq, Repr

/-- The non-template overload of `exp` (the spec's `toExpression`):
a number becomes a constant expression with empty map, a Variable becomes a
single-entry map with factor 1, an Expression is returned as is. -/
def exp : Operand → Expression
  | .num c => { linear := { coeff := [] }, constant := c }
  | .var v => { linear := { coeff := [(v.name, { factor := 1, vr := v })] }, constant := 0 }
  | .expr e => e

/-- The body of the `for` loop of `addMul`: `res.linear.coeff.get(name)`;
if absent, `set` a fresh record `{ variable, factor: 0 }` (an append, since
the key is new); then `existing.factor += d` (an in-place update of the
matching entry, at its original position). -/
def updateAdd (m : List (String × Coeff)) (k : String) (v : Variable) (d : ℚ) :
    List (String × Coeff) :=
  match m with
  | [] => [(k, { factor := 0 + d, vr := v })]
  | (k0, c0) :: rest =>
    if k0 = k then (k0, { c0 with factor := c0.factor + d }) :: rest
    else (k0, c0) :: updateAdd rest k v d

/-- `addMul(expression, coefficient, other)` of `src/mod.ts`: both operands
are lifted with `exp`; the result map starts as a clone of the base map
(in a pure embedding the clone is the list itself; the freshness of the
cloned records is captured by the heap-level model `addMulH` below); then
every value `{ variable, factor }` of `other`'s map adds
`coefficient * factor` into the entry keyed `variable.name`, creating it
with factor 0 first when missing; the constant is
`base.constant + coefficient * other.constant`. -/
def addMul (expression : Operand) (coefficient : ℚ) (other : Operand) : Expression :=
  let base := exp expression
  let o := exp other
  let coeff := (o.linear.coeff.map Prod.snd).foldl
    (fun acc cf => updateAdd acc cf.vr.name cf.vr (coefficient * cf.factor))
    base.linear.coeff
  { linear := { coeff := coeff }, constant := base.constant + coefficient * o.constant }

/-- `add(left, right) = addMul(left, 1, right)`. -/
def add (left right : Operand) : Expression := addMul left 1 right

/-- `sub(left, right) = addMul(left, -1, right)`. -/
def sub (left right : Operand) : Expression := addMul left (-1) right

/-- `neg(expression) = addMul(0, -1, expression)`. -/
def neg (expression : Operand) : Expression := addMul (.num 0) (-1) expression

/-- `mul(factor, expression) = addMul(0, factor, expression)`. -/
def mul (factor : ℚ) (expression : Operand) : Expression :=
  addMul (.num 0) factor expression

/-- `div(expression, factor) = addMul(0, 1.0 / factor, expression)`. -/
def div (expression : Operand) (factor : ℚ) : Expression :=
  addMul (.num 0) (1 / factor) expression

/-! Observation helpers used to state properties of the coefficient maps. -/

/-- First entry of the association list with the given key (JS `Map.get`). -/
def lookupC (m : List (String × Coeff)) (n : String) : Option Coeff :=
  (m.find? (fun p => p.1 == n)).map Prod.snd

/-- Effective factor of a variable name in a coefficient map (0 when the
name has no entry). -/
def mapFactor (m : List (String × Coeff)) (n : String) : ℚ :=
  ((lookupC m n).map Coeff.factor).getD 0

/-- Effective factor of a variable name in an Expression. -/
def factorOf (e : Expression) (n : String) : ℚ :=
  mapFactor e.linear.coeff n

/-- The Variable reference stored for a name, if any. -/
def vrOf (m : List (String × Coeff)) (n : String) : Option Variable :=
  (lookupC m n).map Coeff.vr

/-- Sum of the factors of all map values whose variable is named `n`. -/
def sumF (vs : List Coeff) (n : String) : ℚ :=
  ((vs.filter (fun cf => cf.vr.name == n)).map Coeff.factor).sum

/-- First map value whose variable is named `n`, if any. -/
def firstVr (vs : List Coeff) (n : String) : Option Variable :=
  (vs.find? (fun cf => cf.vr.name == n)).map Coeff.vr

/-- The data-model invariant of `LinearExpression` (spec section 3): at most
one entry per variable name, and each entry's `variable.name` equals its
key.  JS `Map`s enforce the first half by construction; the combinators
maintain the second. -/
def WFmap (m : List (String × Coeff)) : Prop :=
  (m.map Prod.fst).Nodup ∧ ∀ p ∈ m, p.2.vr.name = p.1

instance (m : List (String × Coeff)) : Decidable (WFmap m) := by
  unfold WFmap; infer_instance

/-- Equivalence of Expressions as stated by the spec: identical constant and
identical effective factor per variable name, ignoring entry order. -/
def EquivE (a b : Expression) : Prop :=
  a.constant = b.constant ∧ ∀ n, factorOf a n = factorOf b n

theorem sumF_cons (cf : Coeff) (vs : List Coeff) (n : String) :
    sumF (cf :: vs) n = (if cf.vr.name = n then cf.factor else 0) + sumF vs n := by
  by_cases h : cf.vr.name = n <;> simp [sumF, List.filter_cons, h]

theorem firstVr_cons (cf : Coeff) (vs : List Coeff) (n : String) :
    firstVr (cf :: vs) n = if cf.vr.name = n then some cf.vr else firstVr vs n := by
  by_cases h : cf.vr.name = n <;> simp [firstVr, List.find?_cons, h]

theorem updateAdd_mapFactor (m : List (String × Coeff)) (k : String) (v : Variable)
    (d : ℚ) (n : String) :
    mapFactor (updateAdd m k v d) n = mapFactor m n + (if k = n then d else 0) := by
  induction m with
  | nil =>
    by_cases h : k = n <;> simp [updateAdd, mapFactor, lookupC, List.find?_cons, h]
  | cons hd rest ih =>
    obtain ⟨k0, c0⟩ := hd
    by_cases hk : k0 = k
    · subst hk
      by_cases hn : k0 = n <;>
        simp [updateAdd, mapFactor, lookupC, List.find?_cons, hn]
    · by_cases hn : k0 = n
      · subst hn
        have : ¬ (k = k0) := fun h => hk h.symm
        simp [updateAdd, hk, mapFactor, lookupC, List.find?_cons, this]
      · simpa [updateAdd, hk, mapFactor, lookupC, List.find?_cons, hn] using ih

theorem updateAdd_vrOf (m : List (String × Coeff)) (k : String) (v : Variable)
    (d : ℚ) (n : String) :
    vrOf (updateAdd m k v d) n
      = (vrOf m n).orElse (fun _ => if k = n then some v else none) := by
  induction m with
  | nil =>
    by_cases h : k = n <;>
      simp [updateAdd, vrOf, lookupC, List.find?_cons, h, Option.orElse]
  | cons hd rest ih =>
    obtain ⟨k0, c0⟩ := hd
    by_cases hk : k0 = k
    · subst hk
      by_cases hn : k0 = n
      · simp [updateAdd, vrOf, lookupC, List.find?_cons, hn, Option.orElse]
      · rw [show updateAdd ((k0, c0) :: rest) k0 v d
              = (k0, { c0 with factor := c0.factor + d }) :: rest by
            simp [updateAdd]]
        have h1 : vrOf ((k0, { c0 with factor := c0.factor + d }) :: rest) n
            = vrOf rest n := by
          simp [vrOf, lookupC, List.find?_cons, hn]
        have h2 : vrOf ((k0, c0) :: rest) n = vrOf rest n := by
          simp [vrOf, lookupC, List.find?_cons, hn]
        rw [h1, h2]
        cases hrest : vrOf rest n <;> simp [hrest, Option.orElse, hn]
    · by_cases hn : k0 = n
      · subst hn
        have : ¬ (k = k0) := fun h => hk h.symm
        simp [updateAdd, hk, vrOf, lookupC, List.find?_cons, this, Option.orElse]
      · simpa [updateAdd, hk, vrOf, lookupC, List.find?_cons, hn] using ih

theorem fold_mapFactor (c : ℚ) (vs : List Coeff) (m : List (String × Coeff)) (n : String) :
    mapFactor (vs.foldl
        (fun acc cf => updateAdd acc cf.vr.name cf.vr (c * cf.factor)) m) n
      = mapFactor m n + c * sumF vs n := by
  induction vs generalizing m with
  | nil => simp [sumF]
  | cons cf vs ih =>
    rw [List.foldl_cons, ih, updateAdd_mapFactor, sumF_cons]
    by_cases h : cf.vr.name = n <;> simp [h] <;> ring

theorem fold_vrOf (c : ℚ) (vs : List Coeff) (m : List (String × Coeff)) (n : String) :
    vrOf (vs.foldl
        (fun acc cf => updateAdd acc cf.vr.name cf.vr (c * cf.factor)) m) n
      = (vrOf m n).orElse (fun _ => firstVr vs n) := by
  induction vs generalizing m with
  | nil => cases h : vrOf m n <;> simp [h, firstVr, Option.orElse]
  | cons cf vs ih =>
    rw [List.foldl_cons, ih, updateAdd_vrOf, firstVr_cons]
    cases h : vrOf m n <;> by_cases hn : cf.vr.name = n <;>
      simp [h, hn, Option.orElse]

theorem keys_updateAdd (m : List (String × Coeff)) (k : String) (v : Variable) (d : ℚ) :
    (updateAdd m k v d).map Prod.fst =
      if k ∈ m.map Prod.fst then m.map Prod.fst else m.map Prod.fst ++ [k] := by
  induction m with
  | nil => simp [updateAdd]
  | cons hd rest ih =>
    obtain ⟨k0, c0⟩ := hd
    by_cases h : k0 = k
    · subst h; simp [updateAdd]
    · have : ¬ (k = k0) := fun hh => h hh.symm
      by_cases hmem : k ∈ rest.map Prod.fst <;>
        simp [updateAdd, h, this, hmem, ih]

theorem WFmap_updateAdd (m : List (String × Coeff)) (k : String) (v : Variable) (d : ℚ)
    (hm : WFmap m) (hv : v.name = k) : WFmap (updateAdd m k v d) := by
  induction m with
  | nil =>
    constructor
    · simp [updateAdd]
    · intro p hp
      simp [updateAdd] at hp
      subst hp; simpa using hv
  | cons hd rest ih =>
    obtain ⟨k0, c0⟩ := hd
    obtain ⟨hnd, hnames⟩ := hm
    by_cases h : k0 = k
    · subst h
      constructor
      · simpa [updateAdd] using hnd
      · intro p hp
        simp only [updateAdd, if_pos rfl] at hp
        rcases List.mem_cons.mp hp with h1 | h1
        · subst h1; exact hnames (k0, c0) (by simp)
        · exact hnames p (List.mem_cons_of_mem _ h1)
    · have hrest : WFmap rest :=
        ⟨(List.nodup_cons.mp hnd).2, fun p hp => hnames p (List.mem_cons_of_mem _ hp)⟩
      have := ih hrest
      constructor
      · rw [show updateAdd ((k0, c0) :: rest) k v d
              = (k0, c0) :: updateAdd rest k v d by simp [updateAdd, h]]
        rw [List.map_cons, List.nodup_cons]
        refine ⟨?_, this.1⟩
        rw [keys_updateAdd]
        have hk0 : k0 ∉ rest.map Prod.fst := (List.nodup_cons.mp hnd).1
        split
        · exact hk0
        · simp only [List.mem_append, List.mem_singleton]
          rintro (hc | hc)
          · exact hk0 hc
          · exact h hc
      · intro p hp
        rw [show updateAdd ((k0, c0) :: rest) k v d
              = (k0, c0) :: updateAdd rest k v d by simp [updateAdd, h]] at hp
        rcases List.mem_cons.mp hp with h1 | h1
        · subst h1; exact hnames (k0, c0) (by simp)
        · exact this.2 p h1

theorem WFmap_fold (c : ℚ) (vs : List Coeff) (m : List (String × Coeff))
    (hm : WFmap m) :
    WFmap (vs.foldl
      (fun acc cf => updateAdd acc cf.vr.name cf.vr (c * cf.factor)) m) := by
  induction vs generalizing m with
  | nil => exact hm
  | cons cf vs ih =>
    rw [List.foldl_cons]
    exact ih _ (WFmap_updateAdd _ _ _ _ hm rfl)

theorem sumF_eq_zero (vs : List Coeff) (n : String)
    (h : ∀ cf ∈ vs, cf.vr.name ≠ n) : sumF vs n = 0 := by
  unfold sumF
  rw [List.filter_eq_nil_iff.mpr (by intro cf hcf; simpa using h cf hcf)]
  simp

theorem sumF_values (m : List (String × Coeff)) (hm : WFmap m) (n : String) :
    sumF (m.map Prod.snd) n = mapFactor m n := by
  induction m with
  | nil => simp [sumF, mapFactor, lookupC]
  | cons hd rest ih =>
    obtain ⟨k0, c0⟩ := hd
    obtain ⟨hnd, hnames⟩ := hm
    have hname : c0.vr.name = k0 := hnames (k0, c0) (by simp)
    have hrest : WFmap rest :=
      ⟨(List.nodup_cons.mp hnd).2, fun p hp => hnames p (List.mem_cons_of_mem _ hp)⟩
    by_cases h : k0 = n
    · subst h
      have hz : sumF (rest.map Prod.snd) k0 = 0 := by
        apply sumF_eq_zero
        intro cf hcf
        obtain ⟨p, hp, hpc⟩ := List.mem_map.mp hcf
        intro hcontra
        have hp1 : p.1 = k0 := by
          rw [← hnames p (List.mem_cons_of_mem _ hp), hpc]; exact hcontra
        have hmem : p.1 ∈ rest.map Prod.fst := List.mem_map_of_mem Prod.fst hp
        rw [hp1] at hmem
        exact (List.nodup_cons.mp hnd).1 hmem
      rw [List.map_cons, sumF_cons, hz, hname]
      simp [mapFactor, lookupC, List.find?_cons]
    · rw [List.map_cons, sumF_cons, hname, if_neg h, ih hrest]
      simp [mapFactor, lookupC, List.find?_cons, h]

theorem firstVr_values (m : List (String × Coeff))
    (hm : ∀ p ∈ m, p.2.vr.name = p.1) (n : String) :
    firstVr (m.map Prod.snd) n = vrOf m n := by
  induction m with
  | nil => simp [firstVr, vrOf, lookupC]
  | cons hd rest ih =>
    obtain ⟨k0, c0⟩ := hd
    have hname : c0.vr.name = k0 := hm (k0, c0) (by simp)
    have hrest : ∀ p ∈ rest, p.2.vr.name = p.1 :=
      fun p hp => hm p (List.mem_cons_of_mem _ hp)
    by_cases h : k0 = n
    · subst h
      rw [List.map_cons, firstVr_cons, if_pos hname]
      simp [vrOf, lookupC, List.find?_cons]
    · rw [List.map_cons, firstVr_cons, hname, if_neg h, ih hrest]
      simp [vrOf, lookupC, List.find?_cons, h]

theorem WFmap_addMul (l r : Operand) (c : ℚ) (hl : WFmap (exp l).linear.coeff) :
    WFmap (addMul l c r).linear.coeff :=
  WFmap_fold c ((exp r).linear.coeff.map Prod.snd) (exp l).linear.coeff hl

theorem WFmap_exp_num (q : ℚ) : WFmap (exp (.num q)).linear.coeff := by
  constructor <;> simp [exp]

theorem WFmap_exp_var (v : Variable) : WFmap (exp (.var v)).linear.coeff := by
  constructor <;> simp [exp]

theorem addMul_characterization (l r : Operand) (c : ℚ)
    (hr : WFmap (exp r).linear.coeff) :
    (addMul l c r).constant = (exp l).constant + c * (exp r).constant
  ∧ (∀ n, factorOf (addMul l c r) n = factorOf (exp l) n + c * factorOf (exp r) n)
  ∧ (∀ n, vrOf (addMul l c r).linear.coeff n
        = (vrOf (exp l).linear.coeff n).orElse
            (fun _ => vrOf (exp r).linear.coeff n)) := by
  refine ⟨rfl, ?_, ?_⟩
  · intro n
    show mapFactor (((exp r).linear.coeff.map Prod.snd).foldl
        (fun acc cf => updateAdd acc cf.vr.name cf.vr (c * cf.factor))
        (exp l).linear.coeff) n = _
    rw [fold_mapFactor, sumF_values _ hr]
    rfl
  · intro n
    show vrOf (((exp r).linear.coeff.map Prod.snd).foldl
        (fun acc cf => updateAdd acc cf.vr.name cf.vr (c * cf.factor))
        (exp l).linear.coeff) n = _
    rw [fold_vrOf, firstVr_values _ hr.2]

/-- Claim C1: `addMul(base, c, other)` lifts both operands with `exp`, and
returns an Expression whose constant is `base.constant + c * other.constant`,
whose effective factor at every name is the base factor plus `c` times
`other`'s factor there, and whose stored Variable reference at every name is
the base's one when present and otherwise `other`'s (newly created entries
start at factor 0 and receive `c * factor`).  The well-formedness hypothesis
is the `Map` invariant of the data model (unique names, keys matching the
variables). -/
theorem addMul_spec (l r : Operand) (c : ℚ) (hr : WFmap (exp r).linear.coeff) :
    (addMul l c r).constant = (exp l).constant + c * (exp r).constant
  ∧ (∀ n, factorOf (addMul l c r) n = factorOf (exp l) n + c * factorOf (exp r) n)
  ∧ (∀ n, vrOf (addMul l c r).linear.coeff n
        = (vrOf (exp l).linear.coeff n).orElse
            (fun _ => vrOf (exp r).linear.coeff n)) :=
  addMul_characterization l r c hr

/-- Witness for `addMul_spec` at a concrete input. -/
theorem addMul_spec_witness :
    (addMul (.num 1) 2 (.var { name := "a" })).constant
      = (exp (.num 1)).constant + 2 * (exp (.var { name := "a" })).constant :=
  (addMul_spec (.num 1) (.var { name := "a" }) 2 (by decide)).1

theorem factorOf_addMul (l r : Operand) (c : ℚ) (hr : WFmap (exp r).linear.coeff)
    (n : String) :
    factorOf (addMul l c r) n = factorOf (exp l) n + c * factorOf (exp r) n :=
  (addMul_characterization l r c hr).2.1 n

/-- Claim C6: `add` is associative and commutative up to the stated
equivalence (same constant, same effective factor per variable name,
independent of map order), for Expressions satisfying the data-model `Map`
invariant. -/
theorem add_assoc_comm_equiv (a b c : Expression)
    (ha : WFmap a.linear.coeff) (hb : WFmap b.linear.coeff)
    (hc : WFmap c.linear.coeff) :
    EquivE (add (.expr (add (.expr a) (.expr b))) (.expr c))
           (add (.expr a) (.expr (add (.expr b) (.expr c))))
  ∧ EquivE (add (.expr a) (.expr b)) (add (.expr b) (.expr a)) := by
  have hbc : WFmap (add (.expr b) (.expr c)).linear.coeff :=
    WFmap_addMul (.expr b) (.expr c) 1 hb
  refine ⟨⟨?_, ?_⟩, ⟨?_, ?_⟩⟩
  · show a.constant + 1 * b.constant + 1 * c.constant
      = a.constant + 1 * (b.constant + 1 * c.constant)
    ring
  · intro n
    have h1 := factorOf_addMul (.expr (add (.expr a) (.expr b))) (.expr c) 1 hc n
    have h2 := factorOf_addMul (.expr a) (.expr b) 1 hb n
    have h3 := factorOf_addMul (.expr a) (.expr (add (.expr b) (.expr c))) 1 hbc n
    have h4 := factorOf_addMul (.expr b) (.expr c) 1 hc n
    simp only [exp] at h1 h2 h3 h4
    rw [add, add, add, add] at *
    rw [h1, h2, h3, h4]
    ring
  · show a.constant + 1 * b.constant = b.constant + 1 * a.constant
    ring
  · intro n
    have h1 := factorOf_addMul (.expr a) (.expr b) 1 hb n
    have h2 := factorOf_addMul (.expr b) (.expr a) 1 ha n
    simp only [exp] at h1 h2
    rw [add, add] at *
    rw [h1, h2]
    ring

/-- Witness for `add_assoc_comm_equiv` at concrete inputs. -/
theorem add_assoc_comm_equiv_witness :
    EquivE (add (.expr (exp (.num 1))) (.expr (exp (.num 2))))
           (add (.expr (exp (.num 2))) (.expr (exp (.num 1)))) :=
  (add_assoc_comm_equiv (exp (.num 1)) (exp (.num 2)) (exp (.num 3))
    (by decide) (by decide) (by decide)).2

/-- Claim C7 fails as stated: scaling by coefficient 0 appends a zero-factor
entry for a variable of `other` that is missing from `base`, so the result
map is not equal to `base`'s map even ignoring entry order.  Concretely,
`addMul(exp(5), 0, a)` has map `{a: 0}` while `exp(5)` has an empty map. -/
theorem addMul_zero_not_map_equal :
    ¬ List.Perm
      (addMul (.expr (exp (.num 5))) 0 (.var { name := "a" })).linear.coeff
      (exp (.num 5)).linear.coeff := by
  decide

/-- Claim C7 amended: `addMul(e, 0, anything)` equals `e` up to the
effective-factor equivalence (same constant, same effective factor per
variable name); entry-for-entry equality up to order can fail because a
zero-factor entry may be appended for a variable missing from `e`. -/
theorem addMul_zero_left_identity (e : Expression) (x : Operand) :
    EquivE (addMul (.expr e) 0 x) e := by
  constructor
  · show e.constant + 0 * (exp x).constant = e.constant
    ring
  · intro n
    show mapFactor (((exp x).linear.coeff.map Prod.snd).foldl
        (fun acc cf => updateAdd acc cf.vr.name cf.vr (0 * cf.factor))
        e.linear.coeff) n = factorOf e n
    rw [fold_mapFactor]
    show mapFactor e.linear.coeff n + 0 * _ = mapFactor e.linear.coeff n
    ring

/-- Witness for `addMul_zero_left_identity` at a concrete input. -/
theorem addMul_zero_left_identity_witness :
    EquivE (addMul (.expr (exp (.num 5))) 0 (.var { name := "a" }))
           (exp (.num 5)) :=
  addMul_zero_left_identity (exp (.num 5)) (.var { name := "a" })

/-- Claim C8: for a Variable `x` and nonzero `k`,
`mul(k, div(x, k))` is equivalent to `exp(x)`: constant 0 and effective
factor 1 for `x` (exact in the rational model of JS numbers). -/
theorem mul_div_roundtrip (x : Variable) (k : ℚ) (hk : k ≠ 0) :
    EquivE (mul k (.expr (div (.var x) k))) (exp (.var x)) := by
  constructor
  · show (0 + k * (0 + 1 / k * 0) : ℚ) = 0
    ring
  · intro n
    show mapFactor [(x.name, { factor := 0 + k * (0 + 1 / k * 1), vr := x })] n
       = mapFactor [(x.name, { factor := 1, vr := x })] n
    by_cases h : x.name = n
    · simp only [mapFactor, lookupC, List.find?_cons, h]
      have hbeq : (n == n) = true := by simp
      rw [hbeq]
      simp only [cond_true, Option.map_some, Option.getD_some]
      field_simp
    · have hbeq : (x.name == n) = false := by simpa using h
      simp [mapFactor, lookupC, List.find?_cons, hbeq]

/-- Witness for `mul_div_roundtrip` at a concrete input. -/
theorem mul_div_roundtrip_witness :
    EquivE (mul 2 (.expr (div (.var { name := "x" }) 2)))
           (exp (.var { name := "x" })) :=
  mul_div_roundtrip { name := "x" } 2 (by decide)

/-! The Problem builder.  A `Problem` closure of `src/mod.ts` owns a
variable registry (a `Map` keyed by name, embedded as an association list)
and a constraint list.  The in-place mutation performed by the builder
methods `bounds` / `int` / `binary` on a `Variable` is modelled as an update
of the registry entry; the "same handle" returned by those methods is the
variable's name, which keys the registry. -/

/-- `Constraint` of `src/mod.ts`. -/
structure Constraint where
  expression : Expression
  isEquality : Bool
  deriving DecidableEq, Repr

/-- The comparator union `"<=" | "==" | ">="`. -/
inductive CmpOp where
  | le
  | eq
  | ge
  deriving DecidableEq, Repr, BEq

/-- State of one `Problem` closure: the `variables` map (insertion order)
and the `constraints` array.  (`variables` is a reserved token in Lean, so
the field is written with French quotes.) -/
structure ProblemState where
  «variables» : List (String × Variable)
  constraints : List Constraint
  deriving DecidableEq, Repr

/-- `VariableOptions` of `src/mod.ts`. -/
structure VariableOptions where
  min : Option ℚ := none
  max : Option ℚ := none
  integer : Option Bool := none
  initial : Option ℚ := none
  deriving DecidableEq, Repr

/-- The record built by `problem().variable(name, options)`:
`{ name, ...options }` (the builder methods are modelled separately). -/
def mkVariable (name : String) (o : VariableOptions) : Variable :=
  { name := name, min := o.min, max := o.max, integer := o.integer,
    initial := o.initial }

/-- `variable(name, options)`: errors when the name exists, otherwise
registers and returns the new variable's handle (its name). -/
def ProblemState.addVariable (s : ProblemState) (name : String)
    (o : VariableOptions) : Except String (ProblemState × String) :=
  if s.«variables».any (fun p => p.1 == name) then .error name
  else .ok ({ s with
              «variables» := s.«variables» ++ [(name, mkVariable name o)] },
            name)

/-- `bounds(min, max)`: sets `min` and `max` on the variable record. -/
def Variable.bounds (v : Variable) (lo hi : ℚ) : Variable :=
  { v with min := some lo, max := some hi }

/-- `int()`: sets `integer = true` on the variable record. -/
def Variable.int (v : Variable) : Variable :=
  { v with integer := some true }

/-- `binary()`: `return v.bounds(0, 1).int()`. -/
def Variable.binary (v : Variable) : Variable :=
  (v.bounds 0 1).int

/-- In-place mutation of the registry entry named `n`. -/
def ProblemState.updateVariable (s : ProblemState) (n : String)
    (f : Variable → Variable) : ProblemState :=
  { s with «variables» :=
      (s.«variables».map (fun p => if p.1 == n then (p.1, f p.2) else p)) }

/-- Calling `.binary()` on the variable handle `n`: mutates the registry
record in place and returns the same handle. -/
def ProblemState.binaryCall (s : ProblemState) (n : String) :
    ProblemState × String :=
  (s.updateVariable n Variable.binary, n)

/-- Registry lookup by handle. -/
def lookupVar (s : ProblemState) (n : String) : Option Variable :=
  (s.«variables».find? (fun p => p.1 == n)).map Prod.snd

/-- The `(left, operator, right)` overload of `problem().constraint`:
normalizes to a Constraint (`>=` flips the subtraction), pushes it onto the
constraint list, and returns it. -/
def ProblemState.constraintCall (s : ProblemState) (left : Operand)
    (cmp : CmpOp) (right : Operand) : ProblemState × Constraint :=
  let expression := if cmp = .ge then sub right left else sub left right
  let isEquality : Bool := cmp == .eq
  let cons : Constraint := { expression := expression, isEquality := isEquality }
  ({ s with constraints := s.constraints ++ [cons] }, cons)

/-- Claim C3: `constraint(left, op, right)` returns a Constraint whose
expression is `sub(right, left)` for `>=` and `sub(left, right)` otherwise,
whose `isEquality` holds exactly for `==`, and appends that same Constraint
to the Problem's constraint list. -/
theorem constraintCall_spec (s : ProblemState) (l r : Operand) (op : CmpOp) :
    (s.constraintCall l op r).2.expression
      = (if op = .ge then sub r l else sub l r)
  ∧ ((s.constraintCall l op r).2.isEquality = true ↔ op = .eq)
  ∧ (s.constraintCall l op r).1.constraints
      = s.constraints ++ [(s.constraintCall l op r).2] := by
  cases op <;> simp [ProblemState.constraintCall] <;> decide

/-- Witness for `constraintCall_spec` at a concrete input. -/
theorem constraintCall_spec_witness :
    (ProblemState.constraintCall ⟨[], []⟩ (.num 1) .ge (.num 2)).2.expression
      = (if CmpOp.ge = CmpOp.ge then sub (.num 2) (.num 1)
         else sub (.num 1) (.num 2)) :=
  (constraintCall_spec ⟨[], []⟩ (.num 1) (.num 2) .ge).1

theorem find?_map_update (l : List (String × Variable)) (n : String)
    (f : Variable → Variable) :
    (l.map (fun p => if p.1 == n then (p.1, f p.2) else p)).find?
        (fun p => p.1 == n)
      = (l.find? (fun p => p.1 == n)).map (fun p => (p.1, f p.2)) := by
  induction l with
  | nil => simp
  | cons hd rest ih =>
    obtain ⟨k0, v0⟩ := hd
    rw [List.map_cons]
    by_cases h : k0 = n
    · subst h
      rw [if_pos (by simp)]
      rw [List.find?_cons_of_pos _ (by simp), List.find?_cons_of_pos _ (by simp)]
      simp
    · have hbeq : (k0 == n) = false := by simpa using h
      rw [if_neg (by simp [hbeq])]
      rw [List.find?_cons_of_neg _ (by simp [hbeq]),
        List.find?_cons_of_neg _ (by simp [hbeq])]
      exact ih

theorem find?_map_update_ne (l : List (String × Variable)) (n m : String)
    (f : Variable → Variable) (hnm : m ≠ n) :
    (l.map (fun p => if p.1 == n then (p.1, f p.2) else p)).find?
        (fun p => p.1 == m)
      = l.find? (fun p => p.1 == m) := by
  induction l with
  | nil => simp
  | cons hd rest ih =>
    obtain ⟨k0, v0⟩ := hd
    rw [List.map_cons]
    by_cases h : k0 = n
    · subst h
      have hbeq : (k0 == m) = false := by
        simpa using fun hc => hnm hc.symm
      rw [if_pos (by simp)]
      rw [List.find?_cons_of_neg _ (by simp [hbeq]),
        List.find?_cons_of_neg _ (by simp [hbeq])]
      exact ih
    · have hbeq : (k0 == n) = false := by simpa using h
      rw [if_neg (by simp [hbeq])]
      by_cases h2 : k0 = m
      · subst h2
        rw [List.find?_cons_of_pos _ (by simp), List.find?_cons_of_pos _ (by simp)]
      · have hbeq2 : (k0 == m) = false := by simpa using h2
        rw [List.find?_cons_of_neg _ (by simp [hbeq2]),
          List.find?_cons_of_neg _ (by simp [hbeq2])]
        exact ih

/-- Claim C10: calling `.binary()` on a registered variable mutates it in
place (the registry record afterwards has `min = 0`, `max = 1`,
`integer = true`, all other fields and all other variables untouched),
returns the very same handle, and is definitionally the composition of
`bounds(0, 1)` followed by `int()`. -/
theorem binaryCall_spec (s : ProblemState) (n : String) (v : Variable)
    (h : lookupVar s n = some v) :
    (s.binaryCall n).2 = n
  ∧ lookupVar (s.binaryCall n).1 n
      = some { v with min := some 0, max := some 1, integer := some true }
  ∧ (∀ m, m ≠ n → lookupVar (s.binaryCall n).1 m = lookupVar s m)
  ∧ Variable.binary v = Variable.int (Variable.bounds v 0 1) := by
  refine ⟨rfl, ?_, ?_, rfl⟩
  · simp only [ProblemState.binaryCall, ProblemState.updateVariable, lookupVar]
    rw [find?_map_update]
    unfold lookupVar at h
    obtain ⟨p, hp, hpv⟩ := Option.map_eq_some'.mp h
    rw [hp]
    simp [Variable.binary, Variable.bounds, Variable.int, ← hpv]
  · intro m hm
    simp only [ProblemState.binaryCall, ProblemState.updateVariable, lookupVar]
    rw [find?_map_update_ne _ _ _ _ hm]

/-- Witness for `binaryCall_spec` at a concrete input. -/
theorem binaryCall_spec_witness :
    (ProblemState.binaryCall ⟨[("a", { name := "a" })], []⟩ "a").2 = "a" :=
  (binaryCall_spec ⟨[("a", { name := "a" })], []⟩ "a" { name := "a" }
    (by decide)).1

/-! The tokenizer, parser and evaluator of `parse` in `src/mod.ts`.
The scanner's sticky regex per literal segment is
`\s*((?:[+-]?\d+(?:\.\d+)?)|[+\-*/()]|(?:<=|==|>=)|(?:[\s\S]+$))\s*`:
ordered alternation, each alternative greedy.  `scan` has no mode
parameter: comparators are lexed identically in expression and constraint
mode. -/

/-- The four binary operator tokens. -/
inductive OpKind where
  | plus
  | minus
  | times
  | divide
  deriving DecidableEq, Repr

/-- Bracket tokens. -/
inductive ParKind where
  | lp
  | rp
  deriving DecidableEq, Repr

/-- The token type `Tok` of `src/mod.ts` (`op`, `brac`, `lit`, `exp`,
`cmp`). -/
inductive Tok where
  | op (value : OpKind)
  | brac (value : ParKind)
  | lit (value : ℚ)
  | expTok (value : Expression)
  | cmp (value : CmpOp)
  deriving DecidableEq, Repr

/-- The error conditions thrown by `parse` and its helpers.  The JS code
throws `Error` with a message; each distinct message is one constructor
here.  `lex` carries the offending character and the match's start index
within its segment (as reported by `token.index`).  `outOfFuel` is a model
artifact of the fuel-bounded recursion below and is unreachable for the
fuel bounds used. -/
inductive Err where
  | lex (char : Char) (index : Nat)
  | badParse
  | unexpectedEnd
  | expectedClose
  | unexpectedTok (t : Tok)
  | trailingTok (t : Tok)
  | expectedCmp
  | cannotEvaluateConstraint
  | nonLinearMultiplication
  | nonConstantDivisor
  | outOfFuel
  deriving DecidableEq, Repr

deriving instance DecidableEq for Except

/-- The constructor shape of a token, with the numeric payload of literal
tokens erased (rational values produced by arithmetic do not reduce
definitionally, so shape-level statements are used for concrete scanner
runs). -/
inductive TokKind where
  | op (value : OpKind)
  | brac (value : ParKind)
  | lit
  | expTok
  | cmp (value : CmpOp)
  deriving DecidableEq, Repr

/-- Shape of a token. -/
def Tok.kind : Tok → TokKind
  | .op v => .op v
  | .brac v => .brac v
  | .lit _ => .lit
  | .expTok _ => .expTok
  | .cmp v => .cmp v

/-- The AST node type of the parser. -/
inductive AstNode where
  | lit (value : ℚ)
  | expr (value : Expression)
  | bin (op : OpKind) (left right : AstNode)
  | cmp (op : CmpOp)
  deriving DecidableEq, Repr

/-- Converts the evaluator's `number | Expression` result back into an
operand for the algebra (JS passes the union value directly). -/
def toOperandR : ℚ ⊕ Expression → Operand
  | .inl q => .num q
  | .inr e => .expr e

/-- The `evaluate` function of `parse`: folds an AST bottom-up into a bare
number or an Expression.  `+`/`-` fold numerically when both operands are
numbers and otherwise defer to `add`/`sub`; `*` requires at least one bare
number (`mul(number, other)`) and fails on two expressions; `/` requires a
bare-number divisor and fails otherwise.  (In the rational model, division
by the number 0 yields 0 where JS would produce an IEEE infinity.) -/
def evaluate : AstNode → Except Err (ℚ ⊕ Expression)
  | .lit v => .ok (.inl v)
  | .expr e => .ok (.inr (exp (.expr e)))
  | .cmp _ => .error .cannotEvaluateConstraint
  | .bin op l r => do
    let left ← evaluate l
    let right ← evaluate r
    match op with
    | .plus =>
      match left, right with
      | .inl a, .inl b => pure (.inl (a + b))
      | _, _ => pure (.inr (add (toOperandR left) (toOperandR right)))
    | .minus =>
      match left, right with
      | .inl a, .inl b => pure (.inl (a - b))
      | _, _ => pure (.inr (sub (toOperandR left) (toOperandR right)))
    | .times =>
      match left, right with
      | .inl a, .inl b => pure (.inl (a * b))
      | .inl a, .inr e => pure (.inr (mul a (.expr e)))
      | .inr e, .inl b => pure (.inr (mul b (.expr e)))
      | .inr _, .inr _ => .error .nonLinearMultiplication
    | .divide =>
      match left, right with
      | .inl a, .inl b => pure (.inl (a / b))
      | .inr e, .inl b => pure (.inr (div (.expr e) b))
      | _, .inr _ => .error .nonConstantDivisor

/-- Claim C2: with both operand evaluations succeeding, a `*` node fails
with the non-linear-multiplication error exactly when both results are
Expressions, a `/` node fails with the non-constant-divisor error exactly
when the divisor result is an Expression, and every other `*`/`/`
combination succeeds: two numbers fold numerically, one number scales /
divides the other operand via the algebra. -/
theorem evaluate_mul_div_spec (l r : AstNode) (left right : ℚ ⊕ Expression)
    (hl : evaluate l = .ok left) (hr : evaluate r = .ok right) :
    (∀ eL eR, left = .inr eL → right = .inr eR →
        evaluate (.bin .times l r) = .error .nonLinearMultiplication
      ∧ evaluate (.bin .divide l r) = .error .nonConstantDivisor)
  ∧ (∀ a b, left = .inl a → right = .inl b →
        evaluate (.bin .times l r) = .ok (.inl (a * b))
      ∧ evaluate (.bin .divide l r) = .ok (.inl (a / b)))
  ∧ (∀ a eR, left = .inl a → right = .inr eR →
        evaluate (.bin .times l r) = .ok (.inr (mul a (.expr eR)))
      ∧ evaluate (.bin .divide l r) = .error .nonConstantDivisor)
  ∧ (∀ eL b, left = .inr eL → right = .inl b →
        evaluate (.bin .times l r) = .ok (.inr (mul b (.expr eL)))
      ∧ evaluate (.bin .divide l r) = .ok (.inr (div (.expr eL) b))) := by
  refine ⟨?_, ?_, ?_, ?_⟩ <;> rintro x y rfl rfl <;>
    constructor <;>
      simp [evaluate, hl, hr, Bind.bind, Except.bind, Pure.pure, Except.pure]

/-- Witness for `evaluate_mul_div_spec` at a concrete input. -/
theorem evaluate_mul_div_spec_witness :
    evaluate (.bin .times (.expr (exp (.var { name := "a" })))
        (.expr (exp (.var { name := "b" }))))
      = .error .nonLinearMultiplication
  ∧ evaluate (.bin .divide (.expr (exp (.var { name := "a" })))
        (.expr (exp (.var { name := "b" }))))
      = .error .nonConstantDivisor :=
  (evaluate_mul_div_spec (.expr (exp (.var { name := "a" })))
      (.expr (exp (.var { name := "b" })))
      (.inr (exp (.var { name := "a" }))) (.inr (exp (.var { name := "b" })))
      rfl rfl).1
    (exp (.var { name := "a" })) (exp (.var { name := "b" })) rfl rfl

/-- Digit run to a natural number. -/
def digitsVal (ds : List Char) : Nat :=
  ds.foldl (fun a c => 10 * a + (c.toNat - 48)) 0

/-- Value of a fractional digit run. -/
def fracVal (ds : List Char) : ℚ :=
  (digitsVal ds : ℚ) / (10 : ℚ) ^ ds.length

/-- Optional exponent suffix accepted by JS `parseFloat`
(`[eE][+-]?digits`, backtracked entirely when no digits follow). -/
def expAdjust (v : ℚ) (t : List Char) : ℚ :=
  match t with
  | c :: rest =>
    if c = 'e' || c = 'E' then
      let sgnRest : Int × List Char :=
        match rest with
        | '+' :: r => (1, r)
        | '-' :: r => (-1, r)
        | _ => (1, rest)
      let eds := sgnRest.2.takeWhile Char.isDigit
      if eds.isEmpty then v
      else v * (10 : ℚ) ^ (sgnRest.1 * (digitsVal eds : Int))
    else v
  | [] => v

/-- JS `parseFloat` on the finite fragment
`[+-]?(digits(.digits*)?|.digits+)([eE][+-]?digits)?`, ignoring any
trailing garbage; `none` models a `NaN` result.  IEEE special results
(`Infinity` spellings, overflow to infinity) are outside this rational
model. -/
def jsParseFloat (t : List Char) : Option ℚ :=
  let sign : ℚ × List Char :=
    match t with
    | '+' :: r => (1, r)
    | '-' :: r => (-1, r)
    | _ => (1, t)
  let sg := sign.1
  let t1 := sign.2
  let ip := t1.takeWhile Char.isDigit
  let t2 := t1.dropWhile Char.isDigit
  if ip.isEmpty then
    match t2 with
    | '.' :: t3 =>
      let fp := t3.takeWhile Char.isDigit
      let t4 := t3.dropWhile Char.isDigit
      if fp.isEmpty then none
      else some (sg * expAdjust (fracVal fp) t4)
    | _ => none
  else
    match t2 with
    | '.' :: t3 =>
      let fp := t3.takeWhile Char.isDigit
      let t4 := t3.dropWhile Char.isDigit
      some (sg * expAdjust ((digitsVal ip : ℚ) + fracVal fp) t4)
    | _ => some (sg * expAdjust (digitsVal ip : ℚ) t2)

/-- First regex alternative `[+-]?\d+(\.\d+)?`: returns the matched text
and the rest, or `none` when it does not match at this position. -/
def matchNumberTok (s : List Char) : Option (List Char × List Char) :=
  let sign : List Char × List Char :=
    match s with
    | c :: r => if c = '+' || c = '-' then ([c], r) else ([], s)
    | [] => ([], [])
  let sg := sign.1
  let s1 := sign.2
  let ds := s1.takeWhile Char.isDigit
  let s2 := s1.dropWhile Char.isDigit
  if ds.isEmpty then none
  else
    match s2 with
    | '.' :: s3 =>
      let fs := s3.takeWhile Char.isDigit
      let s4 := s3.dropWhile Char.isDigit
      if fs.isEmpty then some (sg ++ ds, s2)
      else some (sg ++ ds ++ '.' :: fs, s4)
    | _ => some (sg ++ ds, s2)

/-- The scanner regex's ordered alternation at a non-empty position
(`c :: cs`): a signed numeric literal, a single operator/bracket
character, a two-character comparator, or the catch-all `[\s\S]+$` which
swallows the rest of the segment.  Returns (matched group, rest). -/
def matchAlt (c : Char) (cs : List Char) : List Char × List Char :=
  match matchNumberTok (c :: cs) with
  | some (g, rest) => (g, rest)
  | none =>
    if c = '+' || c = '-' || c = '*' || c = '/' || c = '(' || c = ')' then
      ([c], cs)
    else
      match c, cs with
      | '<', '=' :: r => (['<', '='], r)
      | '=', '=' :: r => (['=', '='], r)
      | '>', '=' :: r => (['>', '='], r)
      | _, _ => (c :: cs, [])

/-- Whitespace test of the regex's `\s`. -/
def isWsC (c : Char) : Bool := c.isWhitespace

/-- The raw match loop of the sticky regex over one segment: a list of
(match start index, matched group text) pairs.  The match consumes leading
and trailing whitespace; `token.index` is the position where the whole
match (including leading whitespace) begins.  The fuel argument makes the
recursion structural; every iteration consumes at least one character, so
fuel `s.length + 1` never runs out. -/
def rawToksF : Nat → Nat → List Char → List (Nat × List Char)
  | 0, _, _ => []
  | fuel + 1, pos, s =>
    let k := (s.takeWhile isWsC).length
    match s.drop k with
    | [] => []
    | c :: cs =>
      let m := matchAlt c cs
      let k2 := (m.2.takeWhile isWsC).length
      (pos, m.1) :: rawToksF fuel (pos + k + m.1.length + k2) (m.2.drop k2)

/-- Raw matches of one segment. -/
def rawToks (s : List Char) : List (Nat × List Char) :=
  rawToksF (s.length + 1) 0 s

/-- Does the matched literal text start with an explicit sign? -/
def signStart (t : List Char) : Bool :=
  match t with
  | c :: _ => c = '-' || c = '+'
  | [] => false

/-- The `switch` of the scanner loop on one matched group: operator,
bracket and comparator groups map to their tokens and clear `needsOp`;
everything else goes through `parseFloat` — a number yields a literal
token (preceded by an implicit `+` exactly when `needsOp` is set and the
text starts with an explicit sign) and sets `needsOp`; a `NaN` result is
the lexical error carrying the first character of the group and the match
index. -/
def tokOfMatch (needsOp : Bool) (idx : Nat) (t : List Char) :
    Except Err (List Tok × Bool) :=
  if t = ['+'] then .ok ([.op .plus], false)
  else if t = ['-'] then .ok ([.op .minus], false)
  else if t = ['*'] then .ok ([.op .times], false)
  else if t = ['/'] then .ok ([.op .divide], false)
  else if t = ['('] then .ok ([.brac .lp], false)
  else if t = [')'] then .ok ([.brac .rp], true)
  else if t = ['<', '='] then .ok ([.cmp .le], false)
  else if t = ['=', '='] then .ok ([.cmp .eq], false)
  else if t = ['>', '='] then .ok ([.cmp .ge], false)
  else
    match jsParseFloat t with
    | some num =>
      .ok ((if needsOp && signStart t then [Tok.op .plus] else [])
            ++ [Tok.lit num], true)
    | none => .error (.lex (t.headD ' ') idx)

/-- Emits the tokens of one segment's raw matches, threading `needsOp`. -/
def scanSegToks (needsOp : Bool) :
    List (Nat × List Char) → Except Err (List Tok × Bool)
  | [] => .ok ([], needsOp)
  | (idx, g) :: rest => do
    let r1 ← tokOfMatch needsOp idx g
    let r2 ← scanSegToks r1.2 rest
    .ok (r1.1 ++ r2.1, r2.2)

/-- The `scan` generator over all segments and placeholders: after each
segment, the following placeholder (when any) is emitted — a literal token
for a bare number, an `exp`-wrapped expression token otherwise — and
`needsOp` is set.  (The JS generator is lazy; this strict model produces
the same tokens and the same error on inputs with at most one error
kind.) -/
def scanGo (needsOp : Bool) :
    List (List Char) → List Operand → Except Err (List Tok)
  | [], _ => .ok []
  | s :: ss, vs => do
    let r1 ← scanSegToks needsOp (rawToks s)
    match vs with
    | [] => do
      let rest ← scanGo r1.2 ss []
      .ok (r1.1 ++ rest)
    | v :: vs2 => do
      let ph := match v with
        | .num q => Tok.lit q
        | x => Tok.expTok (exp x)
      let rest ← scanGo true ss vs2
      .ok (r1.1 ++ [ph] ++ rest)

/-- All tokens of an interpolated source (initial `needsOp` is false). -/
def scanAll (strings : List (List Char)) (vars : List Operand) :
    Except Err (List Tok) :=
  scanGo false strings vars

mutual

/-- `primary()` of the recursive-descent parser: a literal or expression
token, or a parenthesized `expression()` requiring a closing `)`. -/
def primaryP : Nat → List Tok → Except Err (AstNode × List Tok)
  | 0, _ => .error .outOfFuel
  | fuel + 1, ts =>
    match ts with
    | [] => .error .unexpectedEnd
    | t :: rest =>
      match t with
      | .lit v => .ok (.lit v, rest)
      | .expTok e => .ok (.expr e, rest)
      | .brac .lp => do
        let r ← sumP fuel rest
        match r.2 with
        | .brac .rp :: ts2 => .ok (r.1, ts2)
        | _ => .error .expectedClose
      | t => .error (.unexpectedTok t)

/-- The `while` loop of `product()`. -/
def productLoopP : Nat → AstNode → List Tok → Except Err (AstNode × List Tok)
  | 0, _, _ => .error .outOfFuel
  | fuel + 1, node, ts =>
    match ts with
    | .op .times :: rest => do
      let r ← primaryP fuel rest
      productLoopP fuel (.bin .times node r.1) r.2
    | .op .divide :: rest => do
      let r ← primaryP fuel rest
      productLoopP fuel (.bin .divide node r.1) r.2
    | _ => .ok (node, ts)

/-- `product()`: left-associative `*`/`/` over `primary()`. -/
def productP : Nat → List Tok → Except Err (AstNode × List Tok)
  | 0, _ => .error .outOfFuel
  | fuel + 1, ts => do
    let r ← primaryP fuel ts
    productLoopP fuel r.1 r.2

/-- The `while` loop of `sum()`. -/
def sumLoopP : Nat → AstNode → List Tok → Except Err (AstNode × List Tok)
  | 0, _, _ => .error .outOfFuel
  | fuel + 1, node, ts =>
    match ts with
    | .op .plus :: rest => do
      let r ← productP fuel rest
      sumLoopP fuel (.bin .plus node r.1) r.2
    | .op .minus :: rest => do
      let r ← productP fuel rest
      sumLoopP fuel (.bin .minus node r.1) r.2
    | _ => .ok (node, ts)

/-- `sum()` (also `expression()`): left-associative `+`/`-` over
`product()`. -/
def sumP : Nat → List Tok → Except Err (AstNode × List Tok)
  | 0, _ => .error .outOfFuel
  | fuel + 1, ts => do
    let r ← productP fuel ts
    sumLoopP fuel r.1 r.2

end

/-- Fuel bound that the concrete runs below never exhaust: each recursive
entry consumes fuel at most a small constant times per token. -/
def tokensFuel (ts : List Tok) : Nat := 8 * ts.length + 8

/-- Expression-mode `parse`: check the template shape, scan, parse an
`expression()`, reject trailing tokens, then evaluate and lift with
`exp`. -/
def parseExpressionTemplate (strings : List (List Char))
    (vars : List Operand) : Except Err Expression :=
  if vars.length + 1 ≠ strings.length then .error .badParse
  else do
    let toks ← scanAll strings vars
    let r ← sumP (tokensFuel toks) toks
    match r.2 with
    | [] => do
      let v ← evaluate r.1
      pure (exp (toOperandR v))
    | t :: _ => .error (.trailingTok t)

/-- Claim C4 fails as stated: an unsigned numeric literal lexed directly
after a completed operand gets no implicit `+` — the insertion additionally
requires the literal's text to start with an explicit `+` or `-`.  On the
segment `"3 4"` the claim predicts tokens `[3, +, 4]`, but the scanner
produces `[3, 4]` with no operator token at all. -/
theorem unsigned_literal_no_implicit_plus :
    (scanAll ["3 4".toList] []).map (fun ts => ts.map Tok.kind)
      = .ok [TokKind.lit, TokKind.lit] := by
  decide

/-- Claim C4 amended: when a matched group is a numeric literal
(`parseFloat` succeeds), the scanner emits the implicit `+` before its
literal token exactly when an operand-completing token precedes
(`needsOp`) AND the matched text begins with an explicit `+` or `-` sign;
otherwise (in particular for every unsigned literal, and for every literal
at the start of the input, where `needsOp` is false) only the literal
token is emitted.  The emitted state `needsOp = true` marks the literal as
operand-completing. -/
theorem implicit_plus_spec (needsOp : Bool) (idx : Nat) (t : List Char)
    (q : ℚ) (hq : jsParseFloat t = some q) :
    tokOfMatch needsOp idx t
      = .ok ((if needsOp && signStart t then [Tok.op .plus] else [])
              ++ [Tok.lit q], true) := by
  have no1 : t ≠ ['+'] := by
    rintro rfl
    rw [show jsParseFloat ['+'] = (none : Option ℚ) from rfl] at hq
    exact Option.noConfusion hq
  have no2 : t ≠ ['-'] := by
    rintro rfl
    rw [show jsParseFloat ['-'] = (none : Option ℚ) from rfl] at hq
    exact Option.noConfusion hq
  have no3 : t ≠ ['*'] := by
    rintro rfl
    rw [show jsParseFloat ['*'] = (none : Option ℚ) from rfl] at hq
    exact Option.noConfusion hq
  have no4 : t ≠ ['/'] := by
    rintro rfl
    rw [show jsParseFloat ['/'] = (none : Option ℚ) from rfl] at hq
    exact Option.noConfusion hq
  have no5 : t ≠ ['('] := by
    rintro rfl
    rw [show jsParseFloat ['('] = (none : Option ℚ) from rfl] at hq
    exact Option.noConfusion hq
  have no6 : t ≠ [')'] := by
    rintro rfl
    rw [show jsParseFloat [')'] = (none : Option ℚ) from rfl] at hq
    exact Option.noConfusion hq
  have no7 : t ≠ ['<', '='] := by
    rintro rfl
    rw [show jsParseFloat ['<', '='] = (none : Option ℚ) from rfl] at hq
    exact Option.noConfusion hq
  have no8 : t ≠ ['=', '='] := by
    rintro rfl
    rw [show jsParseFloat ['=', '='] = (none : Option ℚ) from rfl] at hq
    exact Option.noConfusion hq
  have no9 : t ≠ ['>', '='] := by
    rintro rfl
    rw [show jsParseFloat ['>', '='] = (none : Option ℚ) from rfl] at hq
    exact Option.noConfusion hq
  unfold tokOfMatch
  rw [if_neg no1, if_neg no2, if_neg no3, if_neg no4, if_neg no5, if_neg no6,
    if_neg no7, if_neg no8, if_neg no9, hq]

/-- Witness for `implicit_plus_spec` at a concrete input: after an operand,
the signed literal `-5` receives an implicit `+`. -/
theorem implicit_plus_spec_witness :
    tokOfMatch true 0 ['-', '5']
      = .ok ((if true && signStart ['-', '5'] then [Tok.op .plus] else [])
              ++ [Tok.lit ((-1 : ℚ) * expAdjust (digitsVal ['5'] : ℚ) [])],
            true) :=
  implicit_plus_spec true 0 ['-', '5'] ((-1 : ℚ) * expAdjust (digitsVal ['5'] : ℚ) [])
    rfl

/-- Claim C5 fails as stated: the scanner has no mode parameter, so `<=`
inside a literal segment is lexed as a comparator token in expression mode
as well; the expression-mode parse of `"1 <= 2"` then fails with a
trailing-token parse error that carries the comparator token — not with a
lexical error. -/
theorem cmp_lexed_not_lexical_error :
    (scanAll ["1 <= 2".toList] []).map (fun ts => ts.map Tok.kind)
      = .ok [TokKind.lit, TokKind.cmp .le, TokKind.lit]
  ∧ parseExpressionTemplate ["1 <= 2".toList] []
      = .error (.trailingTok (.cmp .le)) := by
  constructor <;> decide

/-- Claim C5 amended: comparator source text is lexed to comparator tokens
independently of the mode; in expression mode a comparator is rejected by
the parser as an unexpected trailing token (carrying the comparator
token), not reported as a lexical error. -/
theorem cmp_mode_independent (needsOp : Bool) (idx : Nat) :
    tokOfMatch needsOp idx ['<', '='] = .ok ([Tok.cmp .le], false)
  ∧ tokOfMatch needsOp idx ['=', '='] = .ok ([Tok.cmp .eq], false)
  ∧ tokOfMatch needsOp idx ['>', '='] = .ok ([Tok.cmp .ge], false)
  ∧ parseExpressionTemplate ["1 <= 2".toList] []
      = .error (.trailingTok (.cmp .le)) := by
  refine ⟨rfl, rfl, rfl, by decide⟩

/-- Witness for `cmp_mode_independent` at a concrete input. -/
theorem cmp_mode_independent_witness :
    tokOfMatch true 0 ['<', '='] = .ok ([Tok.cmp .le], false) :=
  (cmp_mode_independent true 0).1

/-! Heap-level model of `addMul`, capturing the mutation structure of the
JS code: the coefficient records `{ factor, variable }` live in a heap of
mutable cells addressed by allocation order; an expression's map holds cell
addresses.  `addMul` first clones the base map into freshly allocated
cells ("clone all factors, but share all variables") and then mutates only
those fresh cells (`existing.factor += ...`), so every cell that existed
before the call is left untouched — the side-effect-freedom the spec
states. -/

/-- One mutable coefficient record. -/
structure CoeffRec where
  factor : ℚ
  vr : Variable
  deriving DecidableEq, Repr

/-- The heap: cells addressed by their allocation index. -/
abbrev Heap := List CoeffRec

/-- An expression whose map stores heap addresses of its records. -/
structure HExpr where
  coeff : List (String × Nat)
  constant : ℚ
  deriving DecidableEq, Repr

/-- Heap-level operand union. -/
inductive HOperand where
  | num (value : ℚ)
  | var (value : Variable)
  | hexpr (value : HExpr)
  deriving DecidableEq, Repr

/-- Read a cell. -/
def readH (h : Heap) (a : Nat) : Option CoeffRec := h.get? a

/-- Overwrite a cell. -/
def writeH (h : Heap) (a : Nat) (r : CoeffRec) : Heap := h.set a r

/-- Allocate a fresh cell, returning its address. -/
def allocH (h : Heap) (r : CoeffRec) : Heap × Nat := (h ++ [r], h.length)

/-- Placeholder record for reads of invalid addresses (never reached for
well-formed expressions). -/
def defaultRec : CoeffRec := { factor := 0, vr := { name := "" } }

/-- Heap-level `exp`: a Variable allocates one fresh `{ factor: 1 }`
record; numbers and existing Expressions allocate nothing. -/
def expH (h : Heap) : HOperand → Heap × HExpr
  | .num q => (h, { coeff := [], constant := q })
  | .var v =>
    let al := allocH h { factor := 1, vr := v }
    (al.1, { coeff := [(v.name, al.2)], constant := 0 })
  | .hexpr e => (h, e)

/-- One step of `addMul`'s clone: read the base record, allocate a fresh
copy, append it to the result map under the same name. -/
def cloneStep (p : Heap × List (String × Nat)) (e : String × Nat) :
    Heap × List (String × Nat) :=
  let r := (readH p.1 e.2).getD defaultRec
  let al := allocH p.1 r
  (al.1, p.2 ++ [(e.1, al.2)])

/-- One step of `addMul`'s `for` loop over `other`'s records: look the
variable's name up in the result map; on a hit, bump that record's factor
in place; on a miss, allocate a `{ factor: 0 }` record, append it to the
map, and bump it. -/
def addStep (c : ℚ) (p : Heap × List (String × Nat)) (e : String × Nat) :
    Heap × List (String × Nat) :=
  match p.2.find? (fun q => q.1 == ((readH p.1 e.2).getD defaultRec).vr.name) with
  | some q =>
    let re := (readH p.1 q.2).getD defaultRec
    (writeH p.1 q.2
      { factor := re.factor + c * ((readH p.1 e.2).getD defaultRec).factor,
        vr := re.vr }, p.2)
  | none =>
    let al := allocH p.1
      { factor := 0, vr := ((readH p.1 e.2).getD defaultRec).vr }
    let rn := (readH al.1 al.2).getD defaultRec
    (writeH al.1 al.2
      { factor := rn.factor + c * ((readH p.1 e.2).getD defaultRec).factor,
        vr := rn.vr },
     p.2 ++ [(((readH p.1 e.2).getD defaultRec).vr.name, al.2)])

/-- Heap-level `addMul`. -/
def addMulH (h : Heap) (expression : HOperand) (coefficient : ℚ)
    (other : HOperand) : Heap × HExpr :=
  let pb := expH h expression
  let po := expH pb.1 other
  let base := pb.2
  let o := po.2
  let cl := base.coeff.foldl cloneStep (po.1, [])
  let fin := o.coeff.foldl (addStep coefficient) cl
  (fin.1, { coeff := fin.2, constant := base.constant + coefficient * o.constant })

/-- Heap-level `add`. -/
def addH (h : Heap) (left right : HOperand) : Heap × HExpr := addMulH h left 1 right

/-- Heap-level `sub`. -/
def subH (h : Heap) (left right : HOperand) : Heap × HExpr := addMulH h left (-1) right

/-- Heap-level `neg`. -/
def negH (h : Heap) (e : HOperand) : Heap × HExpr := addMulH h (.num 0) (-1) e

/-- Heap-level `mul`. -/
def mulH (h : Heap) (k : ℚ) (e : HOperand) : Heap × HExpr := addMulH h (.num 0) k e

/-- Heap-level `div`. -/
def divH (h : Heap) (e : HOperand) (k : ℚ) : Heap × HExpr :=
  addMulH h (.num 0) (1 / k) e

/-- Frame invariant of the two `addMul` loops: cells below the watermark
`n` read as in the original heap `h0`, the heap never shrinks below `n`,
and the result map only references cells at or above `n`. -/
def FrameInv (h0 : Heap) (n : Nat) (p : Heap × List (String × Nat)) : Prop :=
  (∀ a, a < n → readH p.1 a = readH h0 a)
  ∧ n ≤ p.1.length
  ∧ ∀ e ∈ p.2, n ≤ e.2

theorem foldl_inv {α β : Type} (P : β → Prop) (f : β → α → β)
    (hstep : ∀ b x, P b → P (f b x)) :
    ∀ (l : List α) (b : β), P b → P (l.foldl f b) := by
  intro l
  induction l with
  | nil => intro b hb; exact hb
  | cons x xs ih => intro b hb; exact ih _ (hstep b x hb)

theorem readH_append (h : Heap) (t : Heap) (a : Nat) (ha : a < h.length) :
    readH (h ++ t) a = readH h a :=
  List.get?_append ha

theorem cloneStep_inv (h0 : Heap) (n : Nat) (p : Heap × List (String × Nat))
    (e : String × Nat) (hp : FrameInv h0 n p) : FrameInv h0 n (cloneStep p e) := by
  obtain ⟨hr, hl, hm⟩ := hp
  refine ⟨?_, ?_, ?_⟩
  · intro a ha
    show readH (p.1 ++ _) a = readH h0 a
    rw [readH_append _ _ _ (lt_of_lt_of_le ha hl)]
    exact hr a ha
  · show n ≤ (p.1 ++ _).length
    simpa using le_trans hl (Nat.le_add_right _ _)
  · intro x hx
    rcases List.mem_append.mp hx with hx | hx
    · exact hm x hx
    · rcases List.mem_singleton.mp hx with rfl
      exact hl

theorem addStep_inv (h0 : Heap) (n : Nat) (c : ℚ)
    (p : Heap × List (String × Nat)) (e : String × Nat) (hp : FrameInv h0 n p) :
    FrameInv h0 n (addStep c p e) := by
  obtain ⟨hr, hl, hm⟩ := hp
  unfold addStep
  cases hf : List.find? (fun q =>
      q.1 == ((readH p.1 e.2).getD defaultRec).vr.name) p.2 with
  | some q =>
    have hq : n ≤ q.2 := hm q (List.mem_of_find?_eq_some hf)
    refine ⟨?_, ?_, ?_⟩
    · intro a ha
      show readH (writeH p.1 q.2 _) a = readH h0 a
      unfold readH writeH
      rw [List.get?_set_ne _ _ (by omega)]
      exact hr a ha
    · show n ≤ (p.1.set q.2 _).length
      simpa using hl
    · exact hm
  | none =>
    refine ⟨?_, ?_, ?_⟩
    · intro a ha
      show readH (writeH (p.1 ++ _) p.1.length _) a = readH h0 a
      unfold readH writeH
      rw [List.get?_set_ne _ _ (by omega)]
      rw [show ((p.1 ++ _).get? a : Option CoeffRec) = readH (p.1 ++ _) a from rfl]
      rw [readH_append _ _ _ (lt_of_lt_of_le ha hl)]
      exact hr a ha
    · show n ≤ ((p.1 ++ _).set p.1.length _).length
      simp only [List.length_set, List.length_append]
      omega
    · intro x hx
      rcases List.mem_append.mp hx with hx | hx
      · exact hm x hx
      · rcases List.mem_singleton.mp hx with rfl
        exact hl

theorem expH_frame (h : Heap) (o : HOperand) :
    (∀ a, a < h.length → readH (expH h o).1 a = readH h a)
  ∧ h.length ≤ (expH h o).1.length := by
  cases o with
  | num q => exact ⟨fun a _ => rfl, le_refl _⟩
  | var v =>
    constructor
    · intro a ha
      exact readH_append _ _ _ ha
    · show h.length ≤ (h ++ _).length
      simp
  | hexpr e => exact ⟨fun a _ => rfl, le_refl _⟩

theorem addMulH_frame (h : Heap) (l r : HOperand) (c : ℚ) (a : Nat)
    (ha : a < h.length) : readH (addMulH h l c r).1 a = readH h a := by
  have h1 := expH_frame h l
  have h2 := expH_frame (expH h l).1 r
  have hinit : FrameInv h h.length ((expH (expH h l).1 r).1, []) := by
    refine ⟨?_, le_trans h1.2 h2.2, by simp⟩
    intro b hb
    rw [h2.1 b (lt_of_lt_of_le hb h1.2), h1.1 b hb]
  have hclone := foldl_inv (FrameInv h h.length) cloneStep
    (fun b x hb => cloneStep_inv h h.length b x hb)
    (expH h l).2.coeff _ hinit
  have hfin := foldl_inv (FrameInv h h.length) (addStep c)
    (fun b x hb => addStep_inv h h.length c b x hb)
    (expH (expH h l).1 r).2.coeff _ hclone
  exact hfin.1 a ha

/-- Claim C9: the algebra combinators never mutate a pre-existing
coefficient record or Variable.  In the heap model every cell that exists
before a call to `addMul` (or to any of its wrappers `add`, `sub`, `neg`,
`mul`, `div`) reads identically after the call: the clone loop allocates
fresh cells for the base map and the `for` loop mutates only those fresh
cells, so the operands' maps, their factor values and their Variable
references are all exactly as before. -/
theorem algebra_no_mutation (h : Heap) (l r e : HOperand) (c k : ℚ) (a : Nat)
    (ha : a < h.length) :
    readH (addMulH h l c r).1 a = readH h a
  ∧ readH (addH h l r).1 a = readH h a
  ∧ readH (subH h l r).1 a = readH h a
  ∧ readH (negH h e).1 a = readH h a
  ∧ readH (mulH h k e).1 a = readH h a
  ∧ readH (divH h e k).1 a = readH h a
  ∧ (readH (addMulH h l c r).1 a).map CoeffRec.vr = (readH h a).map CoeffRec.vr :=
  ⟨addMulH_frame h l r c a ha,
   addMulH_frame h l r 1 a ha,
   addMulH_frame h l r (-1) a ha,
   addMulH_frame h (.num 0) e (-1) a ha,
   addMulH_frame h (.num 0) e k a ha,
   addMulH_frame h (.num 0) e (1 / k) a ha,
   by rw [addMulH_frame h l r c a ha]⟩

/-- Witness for `algebra_no_mutation` at a concrete input. -/
theorem algebra_no_mutation_witness :
    readH (addMulH [{ factor := 1, vr := { name := "a" } }]
        (.var { name := "b" }) 2 (.var { name := "a" })).1 0
      = readH [{ factor := 1, vr := { name := "a" } }] 0 :=
  (algebra_no_mutation [{ factor := 1, vr := { name := "a" } }]
    (.var { name := "b" }) (.var { name := "a" }) (.num 0) 2 2 0
    (by decide)).1

end Knorpelsolve
